import Mathlib

/-!
Verification of rb-gateway (reviewboard/rb-gateway), a Go HTTP gateway over
Git and Mercurial repositories.

This file gives a shallow embedding, in Lean 4, of the parts of the code
relevant to the claims under scrutiny:

* the token store (api/tokens/memory_store.go),
* the webhook record and its validation (repositories/hooks/webhook.go),
* the webhook store: loading with sanitization, atomic save, and the HTTP
  CRUD handlers with their rollback discipline (repositories/hooks/store.go,
  api/routes.go),
* the push-event payload and its hand-rolled JSON marshalling
  (repositories/events),
* the Git adapter: commit-log pagination, commit lookup, the push-event
  parser and its merge-base computation (repositories/git.go).

Modelling conventions:

* Go strings are Lean `String`s; `len` on a Go string (a byte count) is
  modelled by `String.utf8ByteSize`, which agrees with it because Go source
  strings are UTF-8.
* Go byte-wise lexicographic string comparison is modelled by a
  lexicographic comparison of the character lists; on UTF-8 encoded
  strings the two orders agree (UTF-8 is order-preserving).
* Go maps used as sets or as dictionaries are modelled either as lists
  (when only membership matters) or as functions into `Option`.
* Git object hashes (`plumbing.Hash`) are modelled as `Nat`; the all-zero
  hash (`nullRevision`) is modelled by `0`.
* Fallible Go functions returning `(T, error)` are modelled as `Except`.
-/

/-! ## String utilities shared by several components -/

/-- Byte-wise (here: character-wise) lexicographic comparison of strings,
modelling Go's built-in string `<=`; used by `sort.Strings`. -/
def strLeB : List Char → List Char → Bool
  | [], _ => true
  | _ :: _, [] => false
  | a :: as, b :: bs => if a < b then true else if b < a then false else strLeB as bs

/-- The propositional form of `strLeB`, the order `sort.Strings` sorts by. -/
def strLe (a b : String) : Prop := strLeB a.data b.data = true

instance : DecidableRel strLe := fun a b => by
  unfold strLe
  infer_instance

/-- Model of Go's `sort.Strings`: sort a string slice ascending.  The result
is determined by the multiset alone (equal strings are identical), so any
sorting algorithm is a faithful model; we use insertion sort. -/
def sortStrings (l : List String) : List String := List.insertionSort strLe l

/-- Model of Go's `len` on a string: the byte length of its UTF-8 encoding. -/
def goLen (s : String) : Nat := s.utf8ByteSize

/-! ## Events (repositories/events/events.go)

The closed set of known events consists of the single event `push`. -/

def pushEvent : String := "push"

def validEvents : List String := [pushEvent]

/-- Model of `events.IsValidEvent`: membership in the `validEvents` set. -/
def isValidEvent (event : String) : Bool := validEvents.contains event

/-! ## Webhook records (repositories/hooks/webhook.go) -/

/-- Model of `hooks.Webhook`.  Field order matches the Go struct declaration
(the order `encoding/json` emits the keys in). -/
structure Webhook where
  id : String
  url : String
  secret : String
  enabled : Bool
  events : List String
  repos : List String
deriving DecidableEq, Repr

/-! Scheme extraction, modelling `net/url.Parse` as far as `Webhook.Validate`
consumes it (only the `Scheme` field is inspected).  Go's `getScheme` scans
for a `:`; the scheme must start with a letter and continue with letters,
digits, `+`, `-` or `.`.  A missing or malformed scheme yields the empty
scheme (a relative URL); a `:` at position zero is a parse error, which we
model as `none`.  `url.Parse` lower-cases the scheme. -/

def goIsAlpha (c : Char) : Bool :=
  ('a' ≤ c && c ≤ 'z') || ('A' ≤ c && c ≤ 'Z')

def goIsDigit (c : Char) : Bool :=
  '0' ≤ c && c ≤ '9'

def schemeLoop : List Char → List Char → Option (List Char)
  | _, [] => some []
  | acc, c :: rest =>
    if goIsAlpha c then schemeLoop (acc ++ [c]) rest
    else if goIsDigit c || c = '+' || c = '-' || c = '.' then
      if acc.isEmpty then some [] else schemeLoop (acc ++ [c]) rest
    else if c = ':' then
      if acc.isEmpty then none else some acc
    else some []

/-- Model of the scheme computed by `url.Parse(rawURL)`: `none` is a parse
error ("missing protocol scheme"), `some s` is the (lower-cased) scheme,
with `some ""` for a URL that has no scheme. -/
def goUrlScheme (s : String) : Option String :=
  (schemeLoop [] s.data).map (fun cs => String.mk (cs.map Char.toLower))

/-- Model of `Webhook.Validate` (webhook.go).  Returns the error message of
the first failing check, mirroring the order of checks in the source. -/
def Webhook.validate (hook : Webhook) (repos : List String) : Except String Unit :=
  if hook.events.length = 0 then .error ("Hook has no events.")
  else
    match hook.events.find? (fun e => !(isValidEvent e)) with
    | some e => .error ("Invalid event: \"" ++ e ++ "\".")
    | none =>
      if hook.repos.length = 0 then .error ("Hook has no repositories.")
      else
        match hook.repos.find? (fun r => !(repos.contains r)) with
        | some r => .error ("Invalid repository: \"" ++ r ++ "\".")
        | none =>
          match goUrlScheme hook.url with
          | none => .error ("Invalid URL: missing protocol scheme")
          | some scheme =>
            if scheme ≠ ("http") ∧ scheme ≠ ("https") then
              .error ("Invalid URL scheme \"" ++ scheme ++ "\": only HTTP and HTTPS are supported.")
            else if goLen hook.secret < 20 then
              .error ("Secret is too short (" ++ toString (goLen hook.secret) ++
                " bytes); secrets must be at least 20 bytes.")
            else .ok ()

/-! ## The webhook store (repositories/hooks/store.go)

The Go store is `map[string]*Webhook`; we model it as a function from ids
to `Option Webhook`. -/

def WStore : Type := String → Option Webhook

/-- The empty webhook store. -/
def emptyWStore : WStore := fun _ => none

/-- Map update, modelling `store[id] = hook`. -/
def insertW (store : WStore) (id : String) (hook : Webhook) : WStore :=
  fun q => if q = id then some hook else store q

/-- Key removal, modelling `delete(store, id)`. -/
def eraseW (store : WStore) (id : String) : WStore :=
  fun q => if q = id then none else store q

/-- Model of `validateHook` (store.go): the load-time validate-and-sanitize
step.  Unknown events and unknown repositories are stripped (with a logged
warning, not modelled); a hook left with no events or no repositories is
dropped (`none`); a short secret only logs a warning and keeps the hook;
finally the `events` and `repos` lists are sorted in place. -/
def validateHook (hook : Webhook) (repos : List String) : Option Webhook :=
  let validEvents' := hook.events.filter (fun e => isValidEvent e)
  let validRepos' := hook.repos.filter (fun r => repos.contains r)
  if validEvents'.length = 0 then none
  else if validRepos'.length = 0 then none
  else some { hook with events := sortStrings validEvents', repos := sortStrings validRepos' }

/-- Model of `ReadStore` (store.go): fold the raw JSON array of hooks into a
store, keeping exactly the hooks `validateHook` accepts, keyed by id.
Reading the bytes and `json.Unmarshal` are elided: `raw` is the decoded
array. -/
def readStore (raw : List Webhook) (repos : List String) : WStore :=
  raw.foldl
    (fun store hook =>
      match validateHook hook repos with
      | some h => insertW store h.id h
      | none => store)
    emptyWStore

/-! ## Atomic persistence (WebhookStore.Save, store.go)

`Save` marshals the hooks and writes them through a temporary file created
by `ioutil.TempFile("", "tmp-store")` — i.e. in the system temporary
directory (`os.TempDir()`), since the directory argument is empty — and
then `os.Rename`s it over the target path.  We model the filesystem as a
map from paths to file contents, and `TempFile`'s generated name by the
temp directory plus the pattern plus a random suffix. -/

def FS : Type := String → Option String

/-- The name `ioutil.TempFile("", "tmp-store")` creates: the pattern plus a
random suffix, inside `os.TempDir()`. -/
def tempPath (tmpDir sfx : String) : String := tmpDir ++ "/" ++ ("tmp-store" ++ sfx)

/-- Directory of a path: everything before the final slash (a simplified
`filepath.Dir`, sufficient for the absolute paths used here). -/
def dirOf (s : String) : String :=
  String.mk (((s.data.reverse.dropWhile (fun c => c ≠ '/')).drop 1).reverse)

/-! ## The token store (api/tokens/memory_store.go)

Tokens are 64-character uppercase-hex renderings of 32 random bytes.  The
store is `map[string]bool` used as a set; we model it as `String → Bool`.
The OS random device is modelled as a supply of draws, one per attempt:
`none` is a read failure, `some raw` yields the 32 random bytes. -/

def tokenSize : Nat := 64

def maxAttempts : Nat := 10

def rawTokenSize : Nat := 32

def TStore : Type := String → Bool

def emptyTStore : TStore := fun _ => false

def insertT (store : TStore) (token : String) : TStore :=
  fun q => if q = token then true else store q

/-- Hex digit for a nibble, uppercase (as produced by Go's `%X` verb). -/
def nibbleHex (n : Nat) : Char :=
  if n < 10 then Char.ofNat (48 + n) else Char.ofNat (55 + n)

/-- Model of `fmt.Sprintf("%X", raw)` on a byte array: two uppercase hex
digits per byte. -/
def hexUpper (bytes : List Nat) : String :=
  String.mk (bytes.foldr (fun b acc => nibbleHex (b / 16 % 16) :: nibbleHex (b % 16) :: acc) [])

/-- Model of `MemoryStore.Exists`: a token exists only if it is exactly
`TokenSize` (= 64) bytes long and is a member of the set. -/
def memExists (store : TStore) (token : String) : Bool :=
  if goLen token ≠ tokenSize then false else store token

/-- Model of `MemoryStore.Get`: return the token taken from the request
header (here passed directly) only if it has the right length and exists.
The header lookup itself is elided. -/
def memGet (store : TStore) (token : String) : Option String :=
  if goLen token ≠ tokenSize then none
  else if !(memExists store token) then none
  else some token

inductive TokenErr where
  | rngFailure
  | exhausted
deriving DecidableEq, Repr

/-- The retry loop of `MemoryStore.New`, consuming one draw per attempt. -/
def memNewAux (store : TStore) : List (Option (List Nat)) → Except TokenErr (String × TStore)
  | [] => .error .exhausted
  | none :: _ => .error .rngFailure
  | some raw :: rest =>
    let token := hexUpper raw
    if store token then memNewAux store rest
    else .ok (token, insertT store token)

/-- Model of `MemoryStore.New`: up to `maxAttempts` (= 10) attempts; each
attempt reads 32 random bytes (`draws i`), renders them as uppercase hex and
takes the token unless it already exists.  Exhausting the attempts or an RNG
read failure yield dedicated errors. -/
def memNew (store : TStore) (draws : Nat → Option (List Nat)) : Except TokenErr (String × TStore) :=
  memNewAux store ((List.range maxAttempts).map draws)

/-! ## JSON marshalling (encoding/json as used by this code)

A small JSON value type with a renderer reproducing `json.MarshalIndent`'s
layout: every nested line is `"\n" ++ prefix ++ indent-per-depth`.  Struct
encoding (key order, `omitempty`) is modelled per struct below. -/

inductive JVal where
  | jstr (s : String)
  | jnat (n : Nat)
  | jbool (b : Bool)
  | jarr (elems : List JVal)
  | jobj (fields : List (String × JVal))

/-- Escape a string as `encoding/json` does (with its default HTML
escaping): quote, backslash, the HTML-sensitive characters, control
characters, and the line separators U+2028/U+2029. -/
def jsonEscapeChar (c : Char) : List Char :=
  if c = '"' then ['\\', '"']
  else if c = '\\' then ['\\', '\\']
  else if c = '\n' then ['\\', 'n']
  else if c = '\r' then ['\\', 'r']
  else if c = '\t' then ['\\', 't']
  else if c = '<' then ("\\u003c").data
  else if c = '>' then ("\\u003e").data
  else if c = '&' then ("\\u0026").data
  else if c.toNat < 32 then
    ['\\', 'u', '0', '0', nibbleHex (c.toNat / 16), nibbleHex (c.toNat % 16)].map Char.toLower
  else if c.toNat = 0x2028 then ("\\u2028").data
  else if c.toNat = 0x2029 then ("\\u2029").data
  else [c]

/-- Render a JSON string literal, quotes included. -/
def jstrRender (s : String) : String :=
  String.mk ('"' :: s.data.foldr (fun c acc => jsonEscapeChar c ++ acc) ['"'])

def indentStr (ind : String) : Nat → String
  | 0 => ""
  | n + 1 => indentStr ind n ++ ind

mutual

/-- Render a JSON value at the given depth with the given prefix and
indent, as `json.MarshalIndent(v, pfx, ind)` lays it out.  Commit hashes
(modelled as `Nat`) render as quoted decimal, standing in for the quoted
hex strings Go produces. -/
def renderJ (pfx ind : String) : JVal → Nat → String
  | .jstr s, _ => jstrRender s
  | .jnat n, _ => jstrRender (toString n)
  | .jbool b, _ => if b then ("true") else ("false")
  | .jarr [], _ => "[]"
  | .jarr (e :: es), d =>
      "[" ++ renderElems pfx ind (e :: es) (d + 1) ++ "\n" ++ pfx ++ indentStr ind d ++ "]"
  | .jobj [], _ => "\x7b\x7d"
  | .jobj (f :: fs), d =>
      "\x7b" ++ renderFields pfx ind (f :: fs) (d + 1) ++ "\n" ++ pfx ++ indentStr ind d ++ "\x7d"

def renderElems (pfx ind : String) : List JVal → Nat → String
  | [], _ => ""
  | [e], d => "\n" ++ pfx ++ indentStr ind d ++ renderJ pfx ind e d
  | e :: e' :: es, d =>
      "\n" ++ pfx ++ indentStr ind d ++ renderJ pfx ind e d ++ "," ++
        renderElems pfx ind (e' :: es) d

def renderFields (pfx ind : String) : List (String × JVal) → Nat → String
  | [], _ => ""
  | [(k, v)], d => "\n" ++ pfx ++ indentStr ind d ++ jstrRender k ++ ": " ++ renderJ pfx ind v d
  | (k, v) :: f :: fs, d =>
      "\n" ++ pfx ++ indentStr ind d ++ jstrRender k ++ ": " ++ renderJ pfx ind v d ++ "," ++
        renderFields pfx ind (f :: fs) d

end

/-- JSON encoding of a `Webhook`: all six fields, in struct order, no
`omitempty` tags. -/
def encodeWebhook (h : Webhook) : JVal :=
  .jobj [(("id"), .jstr h.id), (("url"), .jstr h.url), (("secret"), .jstr h.secret),
    (("enabled"), .jbool h.enabled),
    (("events"), .jarr (h.events.map .jstr)), (("repos"), .jarr (h.repos.map .jstr))]

/-- Model of `WebhookStore.Write`'s marshalling step:
`json.MarshalIndent(rawStore, "", "  ")` over the slice of hooks.  The
iteration order of the Go map is not deterministic; `hooks` is the value
slice in whatever order it was gathered. -/
def marshalIndentWebhooks (hooks : List Webhook) : String :=
  renderJ ("") ("  ") (.jarr (hooks.map encodeWebhook)) 0

/-- Model of `WebhookStore.Save` (store.go) as a filesystem transformer:
create the temp file `tempPath tmpDir sfx` (where `tmpDir` models
`os.TempDir()` and `sfx` the random suffix), write the marshalled store to
it, and `os.Rename` it over `path`. -/
def webhookStoreSave (hooks : List Webhook) (path tmpDir sfx : String) (fs : FS) : FS :=
  let tmp := tempPath tmpDir sfx
  let content := marshalIndentWebhooks hooks
  let fs1 : FS := fun q => if q = tmp then some content else fs q
  fun q => if q = path then fs1 tmp else if q = tmp then none else fs1 q

/-! ## The webhook CRUD handlers (api/routes.go)

Each handler is modelled as a pure transformer of the in-memory store,
returning the HTTP status it writes.  Request-body JSON decoding is elided
(the decoded value is the argument); `saveOk` tells whether
`hookStore.Save` succeeds on this request. -/

structure HandlerResult where
  status : Nat
  store : WStore

/-- Model of `API.createHook`: reject a duplicate id (400), run
`Webhook.Validate` (400 on failure), insert, save; on save failure remove
the inserted hook again and answer 500, else 201. -/
def createHook (store : WStore) (hook : Webhook) (repoSet : List String) (saveOk : Bool) :
    HandlerResult :=
  if (store hook.id).isSome then ⟨400, store⟩
  else
    match hook.validate repoSet with
    | .error _ => ⟨400, store⟩
    | .ok _ =>
      let store' := insertW store hook.id hook
      if saveOk then ⟨201, store'⟩
      else ⟨500, eraseW store' hook.id⟩

/-- The partial-update request body of `API.updateHook`: absent fields are
`none`. -/
structure HookPatch where
  id : Option String
  url : Option String
  secret : Option String
  enabled : Option Bool
  events : Option (List String)
  repos : Option (List String)
deriving DecidableEq, Repr

/-- The updated hook `API.updateHook` builds: present patch fields
overwrite the stored hook's fields; the id is never changed. -/
def applyPatch (hook : Webhook) (patch : HookPatch) : Webhook :=
  { id := hook.id
    url := patch.url.getD hook.url
    secret := patch.secret.getD hook.secret
    enabled := patch.enabled.getD hook.enabled
    events := patch.events.getD hook.events
    repos := patch.repos.getD hook.repos }

/-- Model of `API.updateHook`: 404 if the hook is absent, 400 if the patch
tries to set the id, 400 if the patched hook fails validation; otherwise
store the patched hook and save, restoring the previous record and
answering 500 when the save fails, else 200. -/
def updateHook (store : WStore) (hookId : String) (patch : HookPatch) (repoSet : List String)
    (saveOk : Bool) : HandlerResult :=
  match store hookId with
  | none => ⟨404, store⟩
  | some hook =>
    if patch.id.isSome then ⟨400, store⟩
    else
      let u := applyPatch hook patch
      match u.validate repoSet with
      | .error _ => ⟨400, store⟩
      | .ok _ =>
        let store' := insertW store hook.id u
        if saveOk then ⟨200, store'⟩
        else ⟨500, insertW store' hook.id hook⟩

/-- Model of `API.deleteHook`.  The source writes a 404 when the hook is
absent but (lacking a `return`) still falls through to the delete and save;
the first status written wins.  On save failure the previous value is
written back (`api.hookStore[hookId] = hook`); a Go nil-pointer map entry
is modelled as an absent key. -/
def deleteHook (store : WStore) (hookId : String) (saveOk : Bool) : HandlerResult :=
  let hook := store hookId
  let store1 := eraseW store hookId
  if saveOk then ⟨if hook.isSome then 204 else 404, store1⟩
  else ⟨if hook.isSome then 500 else 404, fun q => if q = hookId then hook else store1 q⟩

/-! ## The Git repository model (repositories/git.go)

A Git repository's object store and refs.  Hashes are `Nat`; `parents`,
`ctime`, `author` and `message` are total functions (their values outside
`nodes` are irrelevant under the closure hypotheses used by the theorems).
`refs` lists the full ref names (`refs/heads/...`) with their tips, as
enumerated by `gitRepo.Branches()`; `hashOf` models `plumbing.NewHash` on a
hex string. -/

structure GitGraph where
  nodes : List Nat
  parents : Nat → List Nat
  ctime : Nat → Nat
  author : Nat → String
  message : Nat → String
  refs : List (String × Nat)
  hashOf : String → Nat

/-- Closure of the object store: every parent of a stored commit is stored. -/
def Closed (g : GitGraph) : Prop := ∀ c ∈ g.nodes, ∀ p ∈ g.parents c, p ∈ g.nodes

/-- Weight of a node list used to budget the DFS fuel: one step to visit
each node plus one step per parent pushed. -/
def sumP (pars : Nat → List Nat) (l : List Nat) : Nat :=
  (l.map (fun c => 1 + (pars c).length)).sum

/-- Model of `object.NewCommitPreorderIter(start, seenExternal, ignore)`
drained by `ForEach`: a depth-first pre-order walk.  Popping a commit that
is in `seen` skips it without descending to its parents; otherwise the
commit is emitted, marked seen, and its parents are pushed (first parent
explored first).  The iterator's two skip sets (internal `seen`, seeded
with `ignore`, and `seenExternal`) are combined into the one `seen` list;
the walk is fuelled, and the fuel is shown sufficient below.  Returns
(emitted commits in visit order, final seen list). -/
def dfsAux (pars : Nat → List Nat) : Nat → List Nat → List Nat → List Nat × List Nat
  | 0, _, seen => ([], seen)
  | _ + 1, [], seen => ([], seen)
  | fuel + 1, c :: st, seen =>
    if c ∈ seen then dfsAux pars fuel st seen
    else
      let r := dfsAux pars fuel (pars c ++ st) (c :: seen)
      (c :: r.1, r.2)

/-- Fuel sufficient for any walk of `g`. -/
def gitFuel (g : GitGraph) : Nat := 1 + sumP g.parents g.nodes

/-- A full pre-order commit walk from `start` with blocked set `blocked`. -/
def gitDFS (g : GitGraph) (start : Nat) (blocked : List Nat) : List Nat × List Nat :=
  dfsAux g.parents (gitFuel g) [start] blocked

/-- All commits reachable from `h` (an unblocked walk), in pre-order. -/
def gitAncestors (g : GitGraph) (h : Nat) : List Nat := (gitDFS g h []).1

/-- Reachability along ancestry edges avoiding a blocked set: there is a
path from `a` to `c` (following parent edges) none of whose nodes, the
endpoints included, is in `B`.  This is exactly the set of commits a
pre-order iterator with skip set `B` emits. -/
inductive ReachAvoid (pars : Nat → List Nat) (B : List Nat) : Nat → Nat → Prop where
  | refl (a : Nat) (ha : a ∉ B) : ReachAvoid pars B a a
  | tail {a b c : Nat} (hab : ReachAvoid pars B a b) (hc : c ∈ pars b) (hcB : c ∉ B) :
      ReachAvoid pars B a c

/-! ## Merge base (repositories/git.go, mergeBase) -/

/-- Strict-minimum selection over a list by rank, modelling the Go loop
`if distance < minDistance || minDistance == -1`.  Go iterates the
`commonAncestors` map in unspecified order; because all ranks here are
distinct (they are positions in a duplicate-free traversal) the selected
element does not depend on the order, so a left fold is a faithful model. -/
def pickMinRank (rank : Nat → Nat) (l : List Nat) : Option Nat :=
  l.foldl
    (fun acc h =>
      match acc with
      | none => some h
      | some b => if rank h < rank b then some h else acc)
    none

/-- Model of `mergeBase` (git.go).  Traverse all ancestors of `a` in
pre-order, ranking them by visit order; traverse ancestors of `b`, taking
every hit in `a`'s ancestor set as a common ancestor; record the direct
descendants seen during both traversals (during `b`'s, only for commits
outside `a`'s ancestor set); discard common ancestors that have a child
that is also a common ancestor; return the survivor with the smallest
rank.  `Except.error` models the object-lookup failures; `.ok none` is the
no-common-ancestor case.  If every common ancestor is discarded the Go
function returns its zero-valued `best`, i.e. the all-zero hash. -/
def mergeBase (g : GitGraph) (a b : Nat) : Except Unit (Option Nat) :=
  if a ∈ g.nodes ∧ b ∈ g.nodes then
    let ancestorsA := gitAncestors g a
    let rank := fun h => ancestorsA.indexOf h + 1
    let bVisited := gitAncestors g b
    let commonAncestors := bVisited.filter (fun h => ancestorsA.contains h)
    let ddChildren := fun h =>
      ancestorsA.filter (fun c => (g.parents c).contains h) ++
        (bVisited.filter (fun c => !(ancestorsA.contains c))).filter
          (fun c => (g.parents c).contains h)
    if commonAncestors.isEmpty then .ok none
    else
      let candidates := commonAncestors.filter
        (fun h => !((ddChildren h).any (fun child => commonAncestors.contains child)))
      match pickMinRank rank candidates with
      | some best => .ok (some best)
      | none => .ok (some 0)
  else .error ()

/-! ## Push payloads (repositories/events/payloads.go)

Commit ids (hex strings in Go) are modelled by the `Nat` hashes
themselves. -/

/-- Model of `events.PushPayloadCommitTarget`.  In the Go struct every
field carries `omitempty`, the `branch` field included. -/
structure PushPayloadCommitTarget where
  branch : String
  bookmarks : List String
  tags : List String
deriving DecidableEq, Repr

/-- Model of `events.PushPayloadCommit`. -/
structure PushPayloadCommit where
  id : Nat
  message : String
  target : PushPayloadCommitTarget
deriving DecidableEq, Repr

/-- Model of `events.PushPayload`. -/
structure PushPayload where
  repository : String
  commits : List PushPayloadCommit
deriving DecidableEq, Repr

/-! ## The push-event parser (repositories/git.go, parsePushEvent) -/

/-- The all-zero revision hash. -/
def nullRevision : Nat := 0

def refsHeadsChars : List Char := "refs/heads/".data

/-- Branch name of a `refs/heads/...` ref: the name with the ref namespace
stripped (`strings.TrimPrefix`). -/
def branchNameOf (ref : String) : String := String.mk (ref.data.drop refsHeadsChars.length)

/-- One `<old> <new> <ref>` record of the post-receive stdin format.  The
line/field splitting and hex decoding of `parsePushEvent` are elided:
`old` and `new` are the decoded hashes, `ref` the ref name field. -/
structure PushRecord where
  old : Nat
  new : Nat
  ref : String
deriving DecidableEq, Repr

/-- The ignore list derived from the merge base of a record's two tips:
empty when there is no merge base, else the single base. -/
def mergeBaseIgnore (g : GitGraph) (r : PushRecord) : Except Unit (List Nat) :=
  (mergeBase g r.new r.old).map
    (fun mb =>
      match mb with
      | none => []
      | some b => [b])

/-- The record-processing loop of `parsePushEvent`.  For each record:
deleted refs (`new` all-zero) and refs outside `refs/heads/` are skipped;
for a new branch (`old` all-zero) the tips of all other branches are
ignored, otherwise the merge base of `new` and `old` is; the pre-order
walk from `new` then skips the ignore list and the shared seen set, every
emitted commit is added to the seen set, and the emitted commits are
appended to the payload in reverse (chronological) order, tagged with the
branch name. -/
def parsePushAux (g : GitGraph) :
    List PushRecord → List Nat → List PushPayloadCommit →
      Except Unit (List PushPayloadCommit × List Nat)
  | [], seen, acc => .ok (acc, seen)
  | r :: rest, seen, acc =>
    if r.new = nullRevision then parsePushAux g rest seen acc
    else if !(refsHeadsChars.isPrefixOf r.ref.data) then parsePushAux g rest seen acc
    else
      match (if r.old = nullRevision then
          .ok ((g.refs.filter (fun br => br.1 ≠ r.ref)).map (fun br => br.2))
        else mergeBaseIgnore g r : Except Unit (List Nat)) with
      | .error e => .error e
      | .ok ignore =>
        if r.new ∈ g.nodes then
          parsePushAux g rest (seen ++ (gitDFS g r.new (ignore ++ seen)).1)
            (acc ++ ((gitDFS g r.new (ignore ++ seen)).1.reverse.map
              (fun h => PushPayloadCommit.mk h (g.message h)
                (PushPayloadCommitTarget.mk (branchNameOf r.ref) [] []))))
        else .error ()

/-- Model of `GitRepository.parsePushEvent`: process all records with an
initially empty seen set and wrap the collected commits in a payload for
the repository. -/
def parsePushEvent (g : GitGraph) (repoName : String) (records : List PushRecord) :
    Except Unit PushPayload :=
  (parsePushAux g records [] []).map (fun p => PushPayload.mk repoName p.1)

/-! ## Commit log and commit lookup (repositories/git.go) -/

/-- The max page size for commits. -/
def commitsPageSize : Nat := 20

/-- Model of `repositories.CommitInfo`.  The date is kept as the raw
committer/author timestamp (the string formatting is elided); the empty
`parent_id` of a root commit is `none`. -/
structure CommitInfo where
  author : String
  id : Nat
  date : Nat
  message : String
  parentId : Option Nat
deriving DecidableEq, Repr

def mkCommitInfo (g : GitGraph) (h : Nat) : CommitInfo :=
  { author := g.author h
    id := h
    date := g.ctime h
    message := g.message h
    parentId := (g.parents h).head? }

/-- Model of `gitRepo.Log(&git.LogOptions{From: start, Order:
git.LogOrderCommitterTime})` drained into a list: all commits reachable
from `start`, in descending committer-time order. -/
def gitLog (g : GitGraph) (start : Nat) : List Nat :=
  List.insertionSort (fun a b => g.ctime b ≤ g.ctime a) (gitAncestors g start)

/-- Model of `GitRepository.GetCommits`: walk from the `start` commit when
one is given (`len(start) != 0`), else from the tip of the named branch
(error if the ref does not resolve); yield at most one page
(`commitsPageSize`) of commits. -/
def getCommits (g : GitGraph) (branch start : String) : Except Unit (List CommitInfo) :=
  let startCommit? : Option Nat :=
    if goLen start ≠ 0 then some (g.hashOf start)
    else (g.refs.find? (fun br => br.1 = ("refs/heads/" ++ branch))).map (fun br => br.2)
  match startCommit? with
  | none => .error ()
  | some h => .ok (((gitLog g h).take commitsPageSize).map (mkCommitInfo g))

/-- Model of `repositories.Commit`: a `CommitInfo` plus the diff. -/
structure Commit where
  author : String
  id : Nat
  date : Nat
  message : String
  parentId : Nat
  diff : String
deriving DecidableEq, Repr

/-- Outcome of a go-git object lookup: the error string comparison
`err.Error() == "object not found"` splits failures into the not-found
kind and everything else. -/
inductive GitObjErr where
  | objectNotFound
  | ioErr
deriving DecidableEq, Repr

/-- A stored commit object as `GetCommit` consumes it. -/
structure CommitObj where
  parentHashes : List Nat
  author : String
  date : Nat
  message : String
deriving DecidableEq, Repr

/-- The repository as `GitRepository.GetCommit` sees it: whether
`git.PlainOpen` succeeds, the object lookup, and the patch computation
`parent.Patch(commit)` (diff text or failure). -/
structure GitRepoM where
  openOk : Bool
  lookupCommit : Nat → Except GitObjErr CommitObj
  patch : Nat → Nat → Except Unit String

inductive GetCommitErr where
  | openFailed
  | lookupFailed
  | noParents
  | parentFailed
  | patchFailed
deriving DecidableEq, Repr

/-- Model of `GitRepository.GetCommit`: an "object not found" lookup error
is translated into the `(nil, nil)` result (`.ok none`); any other lookup
error, a parentless commit, a failed parent fetch and a failed patch all
surface as errors; otherwise the commit with its first-parent diff is
returned. -/
def getCommit (repo : GitRepoM) (commitId : Nat) : Except GetCommitErr (Option Commit) :=
  if !repo.openOk then .error .openFailed
  else
    match repo.lookupCommit commitId with
    | .error .objectNotFound => .ok none
    | .error .ioErr => .error .lookupFailed
    | .ok c =>
      match c.parentHashes with
      | [] => .error .noParents
      | p :: _ =>
        match repo.lookupCommit p with
        | .error _ => .error .parentFailed
        | .ok _ =>
          match repo.patch p commitId with
          | .error _ => .error .patchFailed
          | .ok diff => .ok (some ⟨c.author, commitId, c.date, c.message, p, diff⟩)

/-! ## Wire format of push payloads (events/payloads.go + MarshalPayload) -/

/-- JSON field list of a `PushPayloadCommitTarget`: every field is tagged
`omitempty`, so an empty branch string and empty bookmark/tag slices are
omitted. -/
def encodeTargetFields (t : PushPayloadCommitTarget) : List (String × JVal) :=
  (if t.branch ≠ "" then [(("branch"), JVal.jstr t.branch)] else []) ++
    (if t.bookmarks ≠ [] then [(("bookmarks"), JVal.jarr (t.bookmarks.map .jstr))] else []) ++
    (if t.tags ≠ [] then [(("tags"), JVal.jarr (t.tags.map .jstr))] else [])

/-- JSON encoding of a `PushPayloadCommit`: `id`, `message`, `target` in
struct order, none of them omitted. -/
def encodePushCommit (c : PushPayloadCommit) : JVal :=
  .jobj [(("id"), .jnat c.id), (("message"), .jstr c.message),
    (("target"), .jobj (encodeTargetFields c.target))]

/-- Model of `events.MarshalPayload`: the hand-written template emitting
`event` first, `repository` second, then (when the payload has a content
field) the content key, whose value is rendered by
`json.MarshalIndent(content, "\t", "\t")`. -/
def marshalPayloadParts (event repoName fieldName : String) (content : JVal) : String :=
  "\x7b\n" ++ "\t\"event\": " ++ jstrRender event ++ ",\n" ++
    "\t\"repository\": " ++ jstrRender repoName ++
    (if fieldName ≠ "" then
      ",\n" ++ "\t" ++ jstrRender fieldName ++ ": " ++ renderJ ("\t") ("\t") content 0
    else ("")) ++ "\n\x7d\n"

/-- `MarshalPayload` applied to a push payload: `GetEvent()` is `push` and
`GetContent()` is `("commits", p.Commits)`. -/
def marshalPushPayload (p : PushPayload) : String :=
  marshalPayloadParts pushEvent p.repository ("commits")
    (.jarr (p.commits.map encodePushCommit))


/-! ## Specification of the push-event parser

The per-record characterization of the payload the parser builds: for each
record, the chunk of commits it contributes is exactly (as a set, without
duplicates) the commits reachable from the record's new tip by ancestry
paths avoiding both the record's ignore list (derived from `mergeBase`)
and everything emitted for earlier records; every commit in the chunk is
tagged with the record's branch name and carries the commit message. -/
inductive PushSpec (g : GitGraph) : List PushRecord → List Nat → List PushPayloadCommit → Prop where
  | nil (seen : List Nat) : PushSpec g [] seen []
  | cons (r : PushRecord) (rs : List PushRecord) (seen : List Nat)
      (cs rest : List PushPayloadCommit) (mb : List Nat) (seen2 : List Nat)
      (hmb : mergeBaseIgnore g r = .ok mb)
      (hids : ∀ h, h ∈ cs.map PushPayloadCommit.id ↔
        ReachAvoid g.parents (mb ++ seen) r.new h)
      (hnodup : (cs.map PushPayloadCommit.id).Nodup)
      (htag : ∀ c ∈ cs, c.target = PushPayloadCommitTarget.mk (branchNameOf r.ref) [] [])
      (hmsg : ∀ c ∈ cs, c.message = g.message c.id)
      (hseen2 : ∀ x, x ∈ seen2 ↔ x ∈ seen ∨ x ∈ cs.map PushPayloadCommit.id)
      (hrest : PushSpec g rs seen2 rest) :
      PushSpec g (r :: rs) seen (cs ++ rest)

/-! ## Concrete instances used by witnesses and counterexamples -/

/-- A 63-character token value. -/
def str63 : String := String.mk (List.replicate 63 'a')

/-- The singleton repository set of the test configuration. -/
def repoSet0 : List String := [("repo")]

def secret19 : String := String.mk (List.replicate 19 'a')

def secret20 : String := String.mk (List.replicate 20 'a')

/-- A webhook that is valid except for its 19-byte secret. -/
def hook19 : Webhook :=
  { id := ("test-hook"), url := ("http://example.com"), secret := secret19,
    enabled := true, events := [pushEvent], repos := [("repo")] }

/-- The same webhook with a 20-byte secret. -/
def hook20 : Webhook := { hook19 with secret := secret20 }

/-- A raw on-disk hook whose lists arrive unsorted and partly invalid. -/
def rawHook0 : Webhook :=
  { id := ("h1"), url := ("http://example.com"), secret := secret20,
    enabled := true, events := [pushEvent, ("bogus")], repos := [("repo"), ("nope")] }

/-- A patch that only flips the enabled flag. -/
def patch0 : HookPatch :=
  { id := none, url := none, secret := none, enabled := some false,
    events := none, repos := none }

/-- A repository with commit 5 present (parent 4) and everything else
missing. -/
def repoM0 : GitRepoM :=
  { openOk := true
    lookupCommit := fun h =>
      if h = 5 then
        .ok { parentHashes := [4], author := ("alice"), date := 10, message := ("msg") }
      else .error .objectNotFound
    patch := fun _ _ => .ok ("diff") }

def savePath0 : String := "/data/webhooks.json"

def tmpDir0 : String := "/tmp"

def sfx0 : String := "123456789"

/-- A push payload whose single commit has an empty branch name and empty
bookmark and tag lists. -/
def payloadNoBranch : PushPayload :=
  { repository := ("repo"), commits := [⟨1, ("m"), ⟨(""), [], []⟩⟩] }

/-- The diamond history 4 = merge(3, 2), 3 → 1, 2 → 1: pushing the merge
commit 4 over old tip 2 exhibits the difference between "reachable from 4
avoiding the merge base" and "reachable from 4 but not from the merge
base". -/
def cxGraph : GitGraph :=
  { nodes := [1, 2, 3, 4]
    parents := fun n => if n = 4 then [3, 2] else if n = 3 then [1] else if n = 2 then [1] else []
    ctime := fun n => n
    author := fun _ => ("alice")
    message := fun _ => ("msg")
    refs := [(("refs/heads/master"), 4)]
    hashOf := fun _ => 0 }

/-- The post-receive record of that push: old tip 2, new tip 4, on master. -/
def cxRecord : PushRecord := { old := 2, new := 4, ref := ("refs/heads/master") }

/-- The RNG always returning 32 zero bytes. -/
def draws0 : Nat → Option (List Nat) := fun _ => some (List.replicate 32 0)

/-- The RNG always returning the bytes 1, 0, 0, ..., 0. -/
def draws1 : Nat → Option (List Nat) := fun _ => some (1 :: List.replicate 31 0)

/-- An RNG whose reads always fail. -/
def drawsFail : Nat → Option (List Nat) := fun _ => none


/-- Decidable equality for `Except`, used to evaluate the models on
concrete inputs. -/
instance {e a : Type} [DecidableEq e] [DecidableEq a] : DecidableEq (Except e a) := fun x y =>
  match x, y with
  | .error u, .error v =>
    if h : u = v then .isTrue (h ▸ rfl)
    else .isFalse (fun hc => h (by injection hc))
  | .error _, .ok _ => .isFalse (fun hc => by injection hc)
  | .ok _, .error _ => .isFalse (fun hc => by injection hc)
  | .ok u, .ok v =>
    if h : u = v then .isTrue (h ▸ rfl)
    else .isFalse (fun hc => h (by injection hc))


/-- What loading `[rawHook0]` produces: the bogus event and repo stripped,
lists sorted. -/
def sanitizedHook0 : Webhook := { rawHook0 with events := [pushEvent], repos := [("repo")] }


/-- The empty filesystem. -/
def emptyFS : FS := fun _ => none


/-! ## Supporting lemmas -/

theorem strLeB_total : ∀ a b : List Char, strLeB a b = true ∨ strLeB b a = true := by
  intro a
  induction a with
  | nil => intro b; left; rfl
  | cons x xs ih =>
    intro b
    cases b with
    | nil => right; rfl
    | cons y ys =>
      simp only [strLeB]
      rcases lt_trichotomy x y with h | h | h
      · left; simp [h]
      · subst h
        simpa [lt_irrefl] using ih ys
      · right; simp [h, not_lt_of_gt h]

theorem strLeB_trans :
    ∀ a b c : List Char, strLeB a b = true → strLeB b c = true → strLeB a c = true := by
  intro a
  induction a with
  | nil => intro b c _ _; rfl
  | cons x xs ih =>
    intro b c hab hbc
    cases b with
    | nil => simp [strLeB] at hab
    | cons y ys =>
      cases c with
      | nil => simp [strLeB] at hbc
      | cons z zs =>
        simp only [strLeB] at hab hbc ⊢
        by_cases hxy : x < y
        · by_cases hyz : y < z
          · simp [lt_trans hxy hyz]
          · by_cases hzy : z < y
            · simp [hyz, hzy] at hbc
            · have hyez : y = z := le_antisymm (not_lt.mp hzy) (not_lt.mp hyz)
              subst hyez
              simp [hxy]
        · by_cases hyx : y < x
          · simp [hxy, hyx] at hab
          · have hxey : x = y := le_antisymm (not_lt.mp hyx) (not_lt.mp hxy)
            subst hxey
            simp [lt_irrefl] at hab
            by_cases hxz : x < z
            · simp [hxz]
            · by_cases hzx : z < x
              · simp [hxz, hzx] at hbc
              · simp [hxz, hzx] at hbc ⊢
                exact ih ys zs hab hbc

theorem utf8_mk_nil : (String.mk []).utf8ByteSize = 0 := rfl

theorem utf8_mk_cons (c : Char) (l : List Char) :
    (String.mk (c :: l)).utf8ByteSize = (String.mk l).utf8ByteSize + c.utf8Size := by
  simp [String.utf8ByteSize]


theorem ReachAvoid.start_notMem {pars : Nat → List Nat} {B : List Nat} {a c : Nat}
    (h : ReachAvoid pars B a c) : a ∉ B := by
  induction h with
  | refl ha => exact ha
  | tail hab hc hcB ih => exact ih

theorem ReachAvoid.end_notMem {pars : Nat → List Nat} {B : List Nat} {a c : Nat}
    (h : ReachAvoid pars B a c) : c ∉ B := by
  cases h with
  | refl ha => exact ha
  | tail hab hc hcB => exact hcB

theorem ReachAvoid.mono {pars : Nat → List Nat} {B B' : List Nat} {a c : Nat}
    (hsub : ∀ x, x ∈ B' → x ∈ B) (h : ReachAvoid pars B a c) : ReachAvoid pars B' a c := by
  induction h with
  | refl ha => exact .refl _ (fun hx => ha (hsub _ hx))
  | tail hab hc hcB ih => exact .tail ih hc (fun hx => hcB (hsub _ hx))

theorem ReachAvoid.trans {pars : Nat → List Nat} {B : List Nat} {a b c : Nat}
    (h1 : ReachAvoid pars B a b) (h2 : ReachAvoid pars B b c) : ReachAvoid pars B a c := by
  induction h2 with
  | refl _ => exact h1
  | tail hab hc hcB ih => exact .tail ih hc hcB

/-- Adding one node `c` to the blocked set: a path either still avoids `c`,
or ends at `c`, or has a suffix that starts at a parent of `c` and avoids
`c`. -/
theorem reachAvoid_insert {pars : Nat → List Nat} {B : List Nat} {s e : Nat} (c : Nat)
    (h : ReachAvoid pars B s e) :
    ReachAvoid pars (c :: B) s e ∨ e = c ∨ ∃ p ∈ pars c, ReachAvoid pars (c :: B) p e := by
  induction h with
  | refl ha =>
    by_cases hac : s = c
    · exact Or.inr (Or.inl hac)
    · exact Or.inl (.refl s (by simp [List.mem_cons, hac, ha]))
  | tail hab hc hcB ih =>
    rename_i m e'
    by_cases hec : e' = c
    · exact Or.inr (Or.inl hec)
    · have he' : e' ∉ c :: B := by simp [List.mem_cons, hec, hcB]
      rcases ih with hr | hm | ⟨p, hp, hpr⟩
      · exact Or.inl (.tail hr hc he')
      · subst hm
        exact Or.inr (Or.inr ⟨e', hc, .refl e' he'⟩)
      · exact Or.inr (Or.inr ⟨p, hp, .tail hpr hc he'⟩)

theorem sumP_nil (pars : Nat → List Nat) : sumP pars [] = 0 := rfl

theorem sumP_cons (pars : Nat → List Nat) (c : Nat) (l : List Nat) :
    sumP pars (c :: l) = (1 + (pars c).length) + sumP pars l := by
  simp [sumP]

theorem sumP_mono_filter (pars : Nat → List Nat) (p q : Nat → Bool)
    (himp : ∀ x, p x = true → q x = true) (l : List Nat) :
    sumP pars (l.filter p) ≤ sumP pars (l.filter q) := by
  induction l with
  | nil => exact Nat.le_refl _
  | cons u us ih =>
    by_cases hp : p u
    · have hq := himp u hp
      rw [List.filter_cons, List.filter_cons, if_pos hp, if_pos hq, sumP_cons, sumP_cons]
      exact Nat.add_le_add_left ih _
    · rw [List.filter_cons, if_neg hp]
      by_cases hq : q u
      · rw [List.filter_cons, if_pos hq, sumP_cons]
        exact Nat.le_trans ih (Nat.le_add_left _ _)
      · rw [List.filter_cons, if_neg hq]
        exact ih

theorem sumP_filter_le (pars : Nat → List Nat) (p : Nat → Bool) (l : List Nat) :
    sumP pars (l.filter p) ≤ sumP pars l := by
  induction l with
  | nil => exact Nat.le_refl _
  | cons u us ih =>
    by_cases hp : p u
    · rw [List.filter_cons, if_pos hp, sumP_cons, sumP_cons]
      exact Nat.add_le_add_left ih _
    · rw [List.filter_cons, if_neg hp, sumP_cons]
      exact Nat.le_trans ih (Nat.le_add_left _ _)

theorem sumP_erase (pars : Nat → List Nat) (seen : List Nat) (c : Nat) :
    ∀ univ : List Nat, c ∈ univ → c ∉ seen →
      sumP pars (univ.filter (fun x => x ∉ c :: seen)) + (1 + (pars c).length)
        ≤ sumP pars (univ.filter (fun x => x ∉ seen)) := by
  intro univ
  induction univ with
  | nil => intro h; exact absurd h (List.not_mem_nil c)
  | cons u us ih =>
    intro hc hns
    by_cases huc : u = c
    · subst huc
      have h1 : (decide (u ∉ u :: seen)) = false := by simp
      have h2 : (decide (u ∉ seen)) = true := by simpa using hns
      rw [List.filter_cons, List.filter_cons, h1, h2, if_pos rfl]
      simp only [Bool.false_eq_true, if_false]
      rw [sumP_cons]
      have hmono : sumP pars (us.filter (fun x => x ∉ u :: seen))
          ≤ sumP pars (us.filter (fun x => x ∉ seen)) := by
        refine sumP_mono_filter pars _ _ (fun x hx => ?_) us
        simp only [decide_eq_true_eq] at hx ⊢
        exact fun hmem => hx (List.mem_cons_of_mem u hmem)
      omega
    · have hcus : c ∈ us := by
        rcases List.mem_cons.mp hc with h | h
        · exact absurd h.symm huc
        · exact h
      by_cases hus : u ∈ seen
      · have h1 : (decide (u ∉ c :: seen)) = false := by
          simp [List.mem_cons, hus]
        have h2 : (decide (u ∉ seen)) = false := by simpa using hus
        rw [List.filter_cons, List.filter_cons, h1, h2]
        simp only [Bool.false_eq_true, if_false]
        exact ih hcus hns
      · have h1 : (decide (u ∉ c :: seen)) = true := by
          simp [List.mem_cons, hus, fun h => huc h]
        have h2 : (decide (u ∉ seen)) = true := by simpa using hus
        rw [List.filter_cons, List.filter_cons, h1, h2, if_pos rfl, if_pos rfl]
        rw [sumP_cons, sumP_cons]
        have := ih hcus hns
        omega

/-- Correctness of the fuelled pre-order walk: with enough fuel and a stack
of stored commits, the walk emits, without duplicates, exactly the commits
reachable from some stack element along paths avoiding `seen`, the final
seen list is the initial one extended by the emitted commits, and nothing
emitted was already seen. -/
theorem dfsAux_spec (pars : Nat → List Nat) (univ : List Nat)
    (hclosed : ∀ c ∈ univ, ∀ p ∈ pars c, p ∈ univ) :
    ∀ fuel stack seen,
      (∀ s ∈ stack, s ∈ univ) →
      stack.length + sumP pars (univ.filter (fun x => x ∉ seen)) ≤ fuel →
      ((∀ x, x ∈ (dfsAux pars fuel stack seen).2 ↔ x ∈ (dfsAux pars fuel stack seen).1 ∨ x ∈ seen) ∧
        (dfsAux pars fuel stack seen).1.Nodup ∧
        (∀ x ∈ (dfsAux pars fuel stack seen).1, x ∉ seen) ∧
        (∀ e, e ∈ (dfsAux pars fuel stack seen).1 ↔ ∃ s ∈ stack, ReachAvoid pars seen s e)) := by
  intro fuel
  induction fuel with
  | zero =>
    intro stack seen hstack hbound
    have hstack0 : stack = [] := by
      cases stack with
      | nil => rfl
      | cons a as => simp [List.length_cons] at hbound
    subst hstack0
    simp [dfsAux]
  | succ fuel ih =>
    intro stack seen hstack hbound
    cases stack with
    | nil => simp [dfsAux]
    | cons c st =>
      by_cases hc : c ∈ seen
      · have heq : dfsAux pars (fuel + 1) (c :: st) seen = dfsAux pars fuel st seen := by
          simp [dfsAux, hc]
        rw [heq]
        have hb' : st.length + sumP pars (univ.filter (fun x => x ∉ seen)) ≤ fuel := by
          simp only [List.length_cons] at hbound
          omega
        obtain ⟨h1, h2, h3, h4⟩ := ih st seen (fun s hs => hstack s (List.mem_cons_of_mem c hs)) hb'
        refine ⟨h1, h2, h3, fun e => ?_⟩
        rw [h4 e]
        constructor
        · rintro ⟨s, hs, hr⟩
          exact ⟨s, List.mem_cons_of_mem c hs, hr⟩
        · rintro ⟨s, hs, hr⟩
          rcases List.mem_cons.mp hs with hsc | hsc
          · subst hsc
            exact absurd hc hr.start_notMem
          · exact ⟨s, hsc, hr⟩
      · have hcu : c ∈ univ := hstack c (List.mem_cons_self c st)
        have heq : dfsAux pars (fuel + 1) (c :: st) seen =
            ((c :: (dfsAux pars fuel (pars c ++ st) (c :: seen)).1),
              (dfsAux pars fuel (pars c ++ st) (c :: seen)).2) := by
          simp [dfsAux, hc]
        have hb' : (pars c ++ st).length +
            sumP pars (univ.filter (fun x => x ∉ c :: seen)) ≤ fuel := by
          have herase := sumP_erase pars seen c univ hcu hc
          simp only [List.length_cons] at hbound
          simp only [List.length_append]
          omega
        have hstack' : ∀ s ∈ pars c ++ st, s ∈ univ := by
          intro s hs
          rcases List.mem_append.mp hs with h | h
          · exact hclosed c hcu s h
          · exact hstack s (List.mem_cons_of_mem c h)
        obtain ⟨h1, h2, h3, h4⟩ := ih (pars c ++ st) (c :: seen) hstack' hb'
        rw [heq]
        refine ⟨?_, ?_, ?_, ?_⟩
        · intro x
          rw [h1 x, List.mem_cons, List.mem_cons]
          tauto
        · refine List.nodup_cons.mpr ⟨?_, h2⟩
          intro hcr
          exact (h3 c hcr) (List.mem_cons_self c seen)
        · intro x hx
          rcases List.mem_cons.mp hx with hxc | hxr
          · subst hxc; exact hc
          · exact fun hxs => (h3 x hxr) (List.mem_cons_of_mem c hxs)
        · intro e
          constructor
          · intro he
            rcases List.mem_cons.mp he with hec | her
            · subst hec
              exact ⟨e, List.mem_cons_self e st, .refl e hc⟩
            · obtain ⟨s, hs, hr⟩ := (h4 e).mp her
              have hsub : ∀ x, x ∈ seen → x ∈ c :: seen := fun x => List.mem_cons_of_mem c
              rcases List.mem_append.mp hs with hsp | hsst
              · have hsnotseen : s ∉ seen := fun hx => hr.start_notMem (hsub s hx)
                have hstep : ReachAvoid pars seen c s := .tail (.refl c hc) hsp hsnotseen
                exact ⟨c, List.mem_cons_self c st, hstep.trans (hr.mono hsub)⟩
              · exact ⟨s, List.mem_cons_of_mem c hsst, hr.mono hsub⟩
          · rintro ⟨s, hs, hr⟩
            rcases reachAvoid_insert c hr with hr' | hec | ⟨p, hp, hpr⟩
            · have hsc : s ≠ c := by
                intro h
                exact hr'.start_notMem (h ▸ List.mem_cons_self c seen)
              have hsst : s ∈ st := by
                rcases List.mem_cons.mp hs with h | h
                · exact absurd h hsc
                · exact h
              exact List.mem_cons_of_mem c
                ((h4 e).mpr ⟨s, List.mem_append.mpr (Or.inr hsst), hr'⟩)
            · exact hec ▸ List.mem_cons_self c _
            · exact List.mem_cons_of_mem c
                ((h4 e).mpr ⟨p, List.mem_append.mpr (Or.inl hp), hpr⟩)

/-- Specialization of `dfsAux_spec` to a full walk from a single start
commit: the walk emits exactly the commits reachable from `start` avoiding
`blocked`, without duplicates, and none of them was blocked. -/
theorem gitDFS_spec (g : GitGraph) (hclosed : Closed g) (start : Nat) (hs : start ∈ g.nodes)
    (blocked : List Nat) :
    ((∀ e, e ∈ (gitDFS g start blocked).1 ↔ ReachAvoid g.parents blocked start e) ∧
      (gitDFS g start blocked).1.Nodup ∧
      (∀ x ∈ (gitDFS g start blocked).1, x ∉ blocked)) := by
  have hbound : [start].length + sumP g.parents (g.nodes.filter (fun x => x ∉ blocked))
      ≤ gitFuel g := by
    have := sumP_filter_le g.parents (fun x => decide (x ∉ blocked)) g.nodes
    simp only [List.length_cons, List.length_nil, gitFuel]
    omega
  obtain ⟨h1, h2, h3, h4⟩ := dfsAux_spec g.parents g.nodes hclosed (gitFuel g) [start] blocked
    (by intro s hs'; simp only [List.mem_singleton] at hs'; exact hs' ▸ hs) hbound
  refine ⟨fun e => ?_, h2, h3⟩
  rw [gitDFS, h4 e]
  constructor
  · rintro ⟨s, hs', hr⟩
    simp only [List.mem_singleton] at hs'
    exact hs' ▸ hr
  · intro hr
    exact ⟨start, List.mem_singleton.mpr rfl, hr⟩


/-! ## The claims -/

/-- Claim C7: token lookup (`Get` on the request header value, and
`Exists`) accepts a token exactly when it is 64 characters long and a
member of the store's set; any value of length 63 or 65 is rejected (`Get`
returns none, `Exists` returns false) regardless of the store contents. -/
theorem token_lookup_spec :
    (∀ (store : TStore) (t : String),
      memExists store t = true ↔ goLen t = tokenSize ∧ store t = true) ∧
    (∀ (store : TStore) (t : String),
      memGet store t = (if goLen t = tokenSize ∧ store t = true then some t else none)) ∧
    (∀ (store : TStore) (t : String), goLen t = 63 ∨ goLen t = 65 →
      memExists store t = false ∧ memGet store t = none) := by
  refine ⟨fun store t => ?_, fun store t => ?_, fun store t ht => ?_⟩
  · by_cases h : goLen t = tokenSize
    · simp [memExists, h]
    · simp [memExists, h]
  · by_cases h : goLen t = tokenSize
    · by_cases hs : store t = true
      · simp [memGet, memExists, h, hs]
      · simp [memGet, memExists, h, hs]
    · simp [memGet, h]
  · have h : goLen t ≠ tokenSize := by
      rcases ht with h63 | h65 <;> simp [tokenSize] <;> omega
    constructor
    · simp [memExists, h]
    · simp [memGet, h]

/-- Witness for C7 at the 63-character value. -/
theorem token_lookup_spec_witness :
    memExists emptyTStore str63 = false ∧ memGet emptyTStore str63 = none :=
  token_lookup_spec.2.2 emptyTStore str63 (Or.inl (by decide))

/-- Claim C10: when the repository opens, `GetCommit` returns the
`(nil, nil)` pair (modelled `.ok none`) exactly for the "object not found"
lookup outcome; every other failure (a failed open included) surfaces as a
non-nil error. -/
theorem getCommit_notFound_spec :
    (∀ (repo : GitRepoM) (id : Nat), repo.openOk = true →
      (getCommit repo id = .ok none ↔ repo.lookupCommit id = .error .objectNotFound)) ∧
    (∀ (repo : GitRepoM) (id : Nat), repo.openOk = false →
      getCommit repo id = .error .openFailed) := by
  constructor
  · intro repo id hopen
    unfold getCommit
    rw [hopen]
    simp only [Bool.not_true, Bool.false_eq_true, if_false]
    cases hlook : repo.lookupCommit id with
    | error e =>
      cases e with
      | objectNotFound => simp [hlook]
      | ioErr => simp [hlook]
    | ok c =>
      simp only [hlook]
      cases hp : c.parentHashes with
      | nil => simp
      | cons p ps =>
        cases hpl : repo.lookupCommit p with
        | error e' => simp [hpl]
        | ok parent =>
          cases hpatch : repo.patch p id with
          | error e'' => simp [hpl, hpatch]
          | ok diff => simp [hpl, hpatch]
  · intro repo id hopen
    unfold getCommit
    rw [hopen]
    simp

/-- Witness for C10: commit 7 is absent from `repoM0`. -/
theorem getCommit_notFound_witness :
    repoM0.openOk = true ∧
      (getCommit repoM0 7 = .ok none ↔ repoM0.lookupCommit 7 = .error .objectNotFound) :=
  ⟨by decide, getCommit_notFound_spec.1 repoM0 7 (by decide)⟩

/-- What a successful `Webhook.Validate` guarantees about the hook. -/
theorem validate_ok_props (hook : Webhook) (repoSet : List String)
    (h : hook.validate repoSet = .ok ()) :
    hook.events ≠ [] ∧ (∀ e ∈ hook.events, isValidEvent e = true) ∧
      hook.repos ≠ [] ∧ (∀ r ∈ hook.repos, repoSet.contains r = true) ∧
      (∃ s, goUrlScheme hook.url = some s ∧ (s = ("http") ∨ s = ("https"))) ∧
      20 ≤ goLen hook.secret := by
  unfold Webhook.validate at h
  by_cases h1 : hook.events.length = 0
  · simp [h1] at h
  · rw [if_neg h1] at h
    cases hfe : hook.events.find? (fun e => !(isValidEvent e)) with
    | some e => rw [hfe] at h; exact absurd h (by simp)
    | none =>
      simp only [hfe] at h
      by_cases h2 : hook.repos.length = 0
      · rw [if_pos h2] at h; exact absurd h (by simp)
      · rw [if_neg h2] at h
        cases hfr : hook.repos.find? (fun r => !(repoSet.contains r)) with
        | some r => rw [hfr] at h; exact absurd h (by simp)
        | none =>
          simp only [hfr] at h
          cases hsch : goUrlScheme hook.url with
          | none => rw [hsch] at h; exact absurd h (by simp)
          | some s =>
            simp only [hsch] at h
            by_cases h3 : s ≠ ("http") ∧ s ≠ ("https")
            · rw [if_pos h3] at h; exact absurd h (by simp)
            · rw [if_neg h3] at h
              by_cases h4 : goLen hook.secret < 20
              · rw [if_pos h4] at h; exact absurd h (by simp)
              · push_neg at h3
                refine ⟨fun he => h1 (by simp [he]), ?_, fun hr => h2 (by simp [hr]), ?_, ?_, ?_⟩
                · intro e he
                  have := List.find?_eq_none.mp hfe e he
                  simpa using this
                · intro r hr
                  have := List.find?_eq_none.mp hfr r hr
                  simpa using this
                · by_cases hh : s = ("http")
                  · exact ⟨s, rfl, Or.inl hh⟩
                  · exact ⟨s, rfl, Or.inr (h3 hh)⟩
                · omega

/-- A non-400 answer from `createHook` means the id was fresh and the hook
validated. -/
theorem createHook_not400 (store : WStore) (hook : Webhook) (repoSet : List String)
    (saveOk : Bool) (h : (createHook store hook repoSet saveOk).status ≠ 400) :
    store hook.id = none ∧ hook.validate repoSet = .ok () := by
  unfold createHook at h
  by_cases hdup : (store hook.id).isSome = true
  · rw [if_pos hdup] at h
    exact absurd rfl h
  · rw [if_neg hdup] at h
    cases hv : hook.validate repoSet with
    | error e => rw [hv] at h; exact absurd rfl h
    | ok u =>
      cases u
      exact ⟨Option.not_isSome_iff_eq_none.mp (by simpa using hdup), rfl⟩

/-- Claim C5: webhook creation answers 400 for a duplicate id, an empty or
invalid event list, an empty or unknown repository list, a URL scheme
other than http/https, or a secret shorter than 20 bytes; a 19-byte secret
is rejected and a 20-byte secret is accepted (201). -/
theorem createHook_validation_spec :
    (∀ (store : WStore) (hook : Webhook) (repoSet : List String) (saveOk : Bool),
      (store hook.id).isSome = true → (createHook store hook repoSet saveOk).status = 400) ∧
    (∀ (store : WStore) (hook : Webhook) (repoSet : List String) (saveOk : Bool),
      hook.events = [] → (createHook store hook repoSet saveOk).status = 400) ∧
    (∀ (store : WStore) (hook : Webhook) (repoSet : List String) (saveOk : Bool),
      (∃ e ∈ hook.events, isValidEvent e = false) →
        (createHook store hook repoSet saveOk).status = 400) ∧
    (∀ (store : WStore) (hook : Webhook) (repoSet : List String) (saveOk : Bool),
      hook.repos = [] → (createHook store hook repoSet saveOk).status = 400) ∧
    (∀ (store : WStore) (hook : Webhook) (repoSet : List String) (saveOk : Bool),
      (∃ r ∈ hook.repos, repoSet.contains r = false) →
        (createHook store hook repoSet saveOk).status = 400) ∧
    (∀ (store : WStore) (hook : Webhook) (repoSet : List String) (saveOk : Bool) (s : String),
      goUrlScheme hook.url = some s → s ≠ ("http") → s ≠ ("https") →
        (createHook store hook repoSet saveOk).status = 400) ∧
    (∀ (store : WStore) (hook : Webhook) (repoSet : List String) (saveOk : Bool),
      goLen hook.secret < 20 → (createHook store hook repoSet saveOk).status = 400) ∧
    (createHook emptyWStore hook19 repoSet0 true).status = 400 ∧
    (createHook emptyWStore hook20 repoSet0 true).status = 201 := by
  refine ⟨?_, ?_, ?_, ?_, ?_, ?_, ?_, by decide, by decide⟩
  · intro store hook repoSet saveOk hdup
    by_contra hne
    exact absurd hdup (by simp [(createHook_not400 store hook repoSet saveOk hne).1])
  · intro store hook repoSet saveOk he
    by_contra hne
    obtain ⟨h1, _, _, _, _, _⟩ :=
      validate_ok_props hook repoSet (createHook_not400 store hook repoSet saveOk hne).2
    exact h1 he
  · intro store hook repoSet saveOk ⟨e, he, hbad⟩
    by_contra hne
    obtain ⟨_, h2, _, _, _, _⟩ :=
      validate_ok_props hook repoSet (createHook_not400 store hook repoSet saveOk hne).2
    rw [h2 e he] at hbad
    exact Bool.true_eq_false.mp hbad
  · intro store hook repoSet saveOk hr
    by_contra hne
    obtain ⟨_, _, h3, _, _, _⟩ :=
      validate_ok_props hook repoSet (createHook_not400 store hook repoSet saveOk hne).2
    exact h3 hr
  · intro store hook repoSet saveOk ⟨r, hr, hbad⟩
    by_contra hne
    obtain ⟨_, _, _, h4, _, _⟩ :=
      validate_ok_props hook repoSet (createHook_not400 store hook repoSet saveOk hne).2
    rw [h4 r hr] at hbad
    exact Bool.true_eq_false.mp hbad
  · intro store hook repoSet saveOk s hsch hh hhs
    by_contra hne
    obtain ⟨_, _, _, _, ⟨s', hsch', hor⟩, _⟩ :=
      validate_ok_props hook repoSet (createHook_not400 store hook repoSet saveOk hne).2
    rw [hsch] at hsch'
    cases hsch'
    rcases hor with h | h
    · exact hh h
    · exact hhs h
  · intro store hook repoSet saveOk hsec
    by_contra hne
    obtain ⟨_, _, _, _, _, h6⟩ :=
      validate_ok_props hook repoSet (createHook_not400 store hook repoSet saveOk hne).2
    omega

/-- Witness for C5: the 19-byte secret is refused. -/
theorem createHook_validation_witness :
    goLen hook19.secret < 20 ∧ (createHook emptyWStore hook19 repoSet0 true).status = 400 :=
  ⟨by decide, createHook_validation_spec.2.2.2.2.2.2.1 emptyWStore hook19 repoSet0 true (by decide)⟩

/-- Claim C3: when persisting the store fails, each mutating webhook
handler leaves the in-memory store exactly as it was: `createHook` removes
the hook it inserted, `updateHook` restores the previous record, and
`deleteHook` puts the deleted record back.  (For update, the hook is
stored under its own id, as every store built by this code is keyed.) -/
theorem hook_crud_rollback_spec :
    (∀ (store : WStore) (hook : Webhook) (repoSet : List String),
      store hook.id = none → hook.validate repoSet = .ok () →
      (createHook store hook repoSet false).status = 500 ∧
        ∀ q, (createHook store hook repoSet false).store q = store q) ∧
    (∀ (store : WStore) (hookId : String) (hook : Webhook) (patch : HookPatch)
        (repoSet : List String),
      store hookId = some hook → hook.id = hookId → patch.id = none →
      (applyPatch hook patch).validate repoSet = .ok () →
      (updateHook store hookId patch repoSet false).status = 500 ∧
        ∀ q, (updateHook store hookId patch repoSet false).store q = store q) ∧
    (∀ (store : WStore) (hookId : String) (hook : Webhook),
      store hookId = some hook →
      (deleteHook store hookId false).status = 500 ∧
        ∀ q, (deleteHook store hookId false).store q = store q) := by
  refine ⟨?_, ?_, ?_⟩
  · intro store hook repoSet hfresh hvalid
    unfold createHook
    rw [hfresh]
    simp only [Option.isSome_none, Bool.false_eq_true, if_false, hvalid]
    refine ⟨trivial, fun q => ?_⟩
    unfold eraseW insertW
    by_cases hq : q = hook.id
    · simp [hq, hfresh]
    · simp [hq]
  · intro store hookId hook patch repoSet hstored hkey hid hvalid
    unfold updateHook
    rw [hstored]
    simp only [hid, Option.isSome_none, Bool.false_eq_true, if_false, hvalid]
    refine ⟨trivial, fun q => ?_⟩
    unfold insertW
    by_cases hq : q = hook.id
    · simp [hq, hkey ▸ hstored]
    · simp [hq]
  · intro store hookId hook hstored
    unfold deleteHook
    rw [hstored]
    simp only [Option.isSome_some, if_true, Bool.false_eq_true, if_false]
    refine ⟨trivial, fun q => ?_⟩
    unfold eraseW
    by_cases hq : q = hookId
    · simp [hq, hstored]
    · simp [hq]

/-- Witness for C3: a failed save of a one-hook update leaves the store
untouched at the hook's key. -/
theorem hook_crud_rollback_witness :
    (insertW emptyWStore hook20.id hook20) hook20.id = some hook20 ∧
      (updateHook (insertW emptyWStore hook20.id hook20) hook20.id patch0 repoSet0 false).status
        = 500 ∧
      (updateHook (insertW emptyWStore hook20.id hook20) hook20.id patch0 repoSet0
          false).store hook20.id = (insertW emptyWStore hook20.id hook20) hook20.id := by
  refine ⟨by decide, ?_⟩
  have h := hook_crud_rollback_spec.2.1 (insertW emptyWStore hook20.id hook20) hook20.id hook20
    patch0 repoSet0 (by decide) (by decide) (by decide) (by decide)
  exact ⟨h.1, h.2 hook20.id⟩

theorem nibbleHex_utf8Size : ∀ n < 16, (nibbleHex n).utf8Size = 1 := by decide

theorem goLen_hexUpper (bytes : List Nat) : goLen (hexUpper bytes) = 2 * bytes.length := by
  induction bytes with
  | nil => rfl
  | cons b bs ih =>
    have hstep : hexUpper (b :: bs) =
        String.mk (nibbleHex (b / 16 % 16) :: nibbleHex (b % 16) :: (hexUpper bs).data) := rfl
    rw [goLen, hstep, utf8_mk_cons, utf8_mk_cons]
    rw [goLen] at ih
    rw [nibbleHex_utf8Size _ (Nat.mod_lt _ (by omega)),
      nibbleHex_utf8Size _ (Nat.mod_lt _ (by omega))]
    have : String.mk (hexUpper bs).data = hexUpper bs := rfl
    rw [this, ih]
    simp [List.length_cons]
    omega

/-- What a successful `memNewAux` run guarantees: the returned token was
fresh, it came from one of the draws, and the store was extended by
exactly it. -/
theorem memNewAux_ok (store : TStore) :
    ∀ (l : List (Option (List Nat))) (t : String) (s' : TStore),
      memNewAux store l = .ok (t, s') →
      store t = false ∧ s' = insertT store t ∧ ∃ raw, some raw ∈ l ∧ t = hexUpper raw := by
  intro l
  induction l with
  | nil => intro t s' h; exact absurd h (by simp [memNewAux])
  | cons d rest ih =>
    intro t s' h
    cases d with
    | none => exact absurd h (by simp [memNewAux])
    | some raw =>
      unfold memNewAux at h
      by_cases hcol : store (hexUpper raw) = true
      · rw [if_pos hcol] at h
        obtain ⟨h1, h2, raw', hmem, heq⟩ := ih t s' h
        exact ⟨h1, h2, raw', List.mem_cons_of_mem _ hmem, heq⟩
      · rw [if_neg hcol] at h
        injection h with hpair
        injection hpair with ht hs
        subst ht
        subst hs
        exact ⟨by simpa using hcol, rfl, raw, List.mem_cons_self _ _, rfl⟩

/-- When every draw in the list collides with the store, the loop exhausts
its attempts. -/
theorem memNewAux_all_collide (store : TStore) :
    ∀ l : List (Option (List Nat)),
      (∀ d ∈ l, ∃ raw, d = some raw ∧ store (hexUpper raw) = true) →
      memNewAux store l = .error .exhausted := by
  intro l
  induction l with
  | nil => intro _; rfl
  | cons d rest ih =>
    intro hall
    obtain ⟨raw, hd, hcol⟩ := hall d (List.mem_cons_self d rest)
    subst hd
    unfold memNewAux
    rw [if_pos hcol]
    exact ih (fun d' hd' => hall d' (List.mem_cons_of_mem _ hd'))

/-- Claim C6: a token returned by `New` exists in the store afterwards;
two successful calls on the same store never return the same token; all
`maxAttempts` (= 10) draws colliding yields the dedicated exhaustion
error, and an RNG read failure yields the dedicated RNG error. -/
theorem memNew_spec :
    (∀ (store : TStore) (draws : Nat → Option (List Nat)) (t : String) (s' : TStore),
      (∀ i raw, draws i = some raw → raw.length = rawTokenSize) →
      memNew store draws = .ok (t, s') → memExists s' t = true) ∧
    (∀ (store : TStore) (d1 d2 : Nat → Option (List Nat)) (t1 t2 : String) (s1 s2 : TStore),
      memNew store d1 = .ok (t1, s1) → memNew s1 d2 = .ok (t2, s2) → t1 ≠ t2) ∧
    (∀ (store : TStore) (draws : Nat → Option (List Nat)),
      (∀ i, i < maxAttempts → ∃ raw, draws i = some raw ∧ store (hexUpper raw) = true) →
      memNew store draws = .error .exhausted) ∧
    (∀ (store : TStore) (draws : Nat → Option (List Nat)),
      draws 0 = none → memNew store draws = .error .rngFailure) := by
  refine ⟨?_, ?_, ?_, ?_⟩
  · intro store draws t s' hlen hok
    obtain ⟨hfresh, hins, raw, hmem, heq⟩ := memNewAux_ok store _ t s' hok
    obtain ⟨i, hi, hdi⟩ := by
      simpa using List.mem_map.mp hmem
    have hraw : raw.length = rawTokenSize := hlen i raw hdi
    have hlen64 : goLen t = tokenSize := by
      rw [heq, goLen_hexUpper, hraw]
      rfl
    rw [memExists, if_neg (by rw [hlen64]; simp), hins, insertT]
    simp
  · intro store d1 d2 t1 t2 s1 s2 h1 h2
    obtain ⟨_, hins1, _⟩ := memNewAux_ok store _ t1 s1 h1
    obtain ⟨hfresh2, _, _⟩ := memNewAux_ok s1 _ t2 s2 h2
    intro heq
    subst heq
    rw [hins1, insertT] at hfresh2
    simp at hfresh2
  · intro store draws hall
    refine memNewAux_all_collide store _ (fun d hd => ?_)
    obtain ⟨i, hi, hdi⟩ := by
      simpa using List.mem_map.mp hd
    obtain ⟨raw, hr, hcol⟩ := hall i hi
    exact ⟨raw, by rw [← hdi, hr], hcol⟩
  · intro store draws h0
    have : (List.range maxAttempts).map draws =
        draws 0 :: ((List.range 9).map (fun i => draws (i + 1))) := by
      show (List.range 10).map draws = _
      rw [List.range_succ_eq_map]
      simp [List.map_map, Function.comp]
    rw [memNew, this, h0]
    rfl

/-- Witness for C6: a zero-byte draw yields a 64-character token that then
exists; drawing again with different bytes yields a different token; a
failing RNG errors out. -/
theorem memNew_spec_witness :
    (∃ t1 s1, memNew emptyTStore draws0 = .ok (t1, s1) ∧ memExists s1 t1 = true ∧
      ∃ t2 s2, memNew s1 draws1 = .ok (t2, s2) ∧ t1 ≠ t2) ∧
    memNew emptyTStore drawsFail = .error .rngFailure := by
  have h1 : memNew emptyTStore draws0 = .ok (hexUpper (List.replicate 32 0),
      insertT emptyTStore (hexUpper (List.replicate 32 0))) := rfl
  have h2 : memNew (insertT emptyTStore (hexUpper (List.replicate 32 0))) draws1 =
      .ok (hexUpper (1 :: List.replicate 31 0),
        insertT (insertT emptyTStore (hexUpper (List.replicate 32 0)))
          (hexUpper (1 :: List.replicate 31 0))) := rfl
  refine ⟨⟨_, _, h1, ?_, _, _, h2, ?_⟩, ?_⟩
  · refine memNew_spec.1 emptyTStore draws0 _ _ ?_ h1
    intro i raw h
    injection h with h2
    rw [← h2]
    decide
  · exact memNew_spec.2.1 emptyTStore draws0 draws1 _ _ _ _ h1 h2
  · exact memNew_spec.2.2.2 emptyTStore drawsFail rfl

theorem sortStrings_sorted (l : List String) : List.Sorted strLe (sortStrings l) := by
  haveI : IsTotal String strLe := ⟨fun a b => strLeB_total a.data b.data⟩
  haveI : IsTrans String strLe := ⟨fun a b c => strLeB_trans a.data b.data c.data⟩
  exact List.sorted_insertionSort strLe l

theorem sortStrings_perm (l : List String) : (sortStrings l).Perm l :=
  List.perm_insertionSort strLe l

theorem mem_sortStrings {x : String} {l : List String} : x ∈ sortStrings l ↔ x ∈ l :=
  (sortStrings_perm l).mem_iff

theorem sortStrings_length (l : List String) : (sortStrings l).length = l.length :=
  (sortStrings_perm l).length_eq

/-- What a hook kept by the load-time `validateHook` looks like. -/
theorem validateHook_some_props (hook : Webhook) (repoSet : List String) (h' : Webhook)
    (h : validateHook hook repoSet = some h') :
    h'.events ≠ [] ∧ h'.repos ≠ [] ∧
      List.Sorted strLe h'.events ∧ List.Sorted strLe h'.repos ∧
      (∀ e ∈ h'.events, isValidEvent e = true) ∧ (∀ r ∈ h'.repos, r ∈ repoSet) ∧
      h'.id = hook.id := by
  unfold validateHook at h
  by_cases h1 : (hook.events.filter (fun e => isValidEvent e)).length = 0
  · rw [if_pos h1] at h
    exact absurd h (by simp)
  · rw [if_neg h1] at h
    by_cases h2 : (hook.repos.filter (fun r => repoSet.contains r)).length = 0
    · rw [if_pos h2] at h
      exact absurd h (by simp)
    · rw [if_neg h2] at h
      injection h with hh
      subst hh
      dsimp only
      refine ⟨?_, ?_, sortStrings_sorted _, sortStrings_sorted _, ?_, ?_, rfl⟩
      · intro hnil
        have hlen := congrArg List.length hnil
        rw [sortStrings_length, List.length_nil] at hlen
        exact h1 hlen
      · intro hnil
        have hlen := congrArg List.length hnil
        rw [sortStrings_length, List.length_nil] at hlen
        exact h2 hlen
      · intro e he
        have := List.mem_filter.mp (mem_sortStrings.mp he)
        simpa using this.2
      · intro r hr
        have := List.mem_filter.mp (mem_sortStrings.mp hr)
        simpa using this.2

/-- Claim C4: every hook present in a loaded store has non-empty `events`
and `repos` lists, both sorted ascending, containing only known events
and only repositories of the supplied repository set. -/
theorem readStore_loaded_spec :
    ∀ (raw : List Webhook) (repoSet : List String) (id : String) (h : Webhook),
      readStore raw repoSet id = some h →
      h.events ≠ [] ∧ h.repos ≠ [] ∧
        List.Sorted strLe h.events ∧ List.Sorted strLe h.repos ∧
        (∀ e ∈ h.events, isValidEvent e = true) ∧ (∀ r ∈ h.repos, r ∈ repoSet) := by
  intro raw repoSet
  suffices key : ∀ (raw' : List Webhook) (store : WStore),
      (∀ id h, store id = some h →
        h.events ≠ [] ∧ h.repos ≠ [] ∧
          List.Sorted strLe h.events ∧ List.Sorted strLe h.repos ∧
          (∀ e ∈ h.events, isValidEvent e = true) ∧ (∀ r ∈ h.repos, r ∈ repoSet)) →
      ∀ id h,
        (raw'.foldl
          (fun store hook =>
            match validateHook hook repoSet with
            | some h => insertW store h.id h
            | none => store)
          store) id = some h →
        h.events ≠ [] ∧ h.repos ≠ [] ∧
          List.Sorted strLe h.events ∧ List.Sorted strLe h.repos ∧
          (∀ e ∈ h.events, isValidEvent e = true) ∧ (∀ r ∈ h.repos, r ∈ repoSet) by
    intro id h
    exact key raw emptyWStore (fun id' h' hsome => absurd hsome (by simp [emptyWStore])) id h
  intro raw'
  induction raw' with
  | nil => intro store hinv id h hsome; exact hinv id h hsome
  | cons hook rest ih =>
    intro store hinv id h hsome
    rw [List.foldl_cons] at hsome
    refine ih _ ?_ id h hsome
    intro id' h' hsome'
    cases hv : validateHook hook repoSet with
    | none =>
      rw [hv] at hsome'
      exact hinv id' h' hsome'
    | some hs =>
      rw [hv] at hsome'
      simp only [insertW] at hsome'
      by_cases hq : id' = hs.id
      · rw [if_pos hq] at hsome'
        injection hsome' with hh
        subst hh
        obtain ⟨p1, p2, p3, p4, p5, p6, _⟩ := validateHook_some_props hook repoSet hs hv
        exact ⟨p1, p2, p3, p4, p5, p6⟩
      · rw [if_neg hq] at hsome'
        exact hinv id' h' hsome'

/-- Witness for C4: loading the partly-invalid raw hook keeps it with the
bogus event and repository stripped and the lists sorted. -/
theorem readStore_loaded_witness :
    readStore [rawHook0] repoSet0 ("h1") = some sanitizedHook0 ∧
      (sanitizedHook0.events ≠ [] ∧ sanitizedHook0.repos ≠ [] ∧
        List.Sorted strLe sanitizedHook0.events ∧ List.Sorted strLe sanitizedHook0.repos ∧
        (∀ e ∈ sanitizedHook0.events, isValidEvent e = true) ∧
        (∀ r ∈ sanitizedHook0.repos, r ∈ repoSet0)) :=
  ⟨by decide, readStore_loaded_spec [rawHook0] repoSet0 ("h1") sanitizedHook0 (by decide)⟩

/-- Claim C8: `GetCommits` walks from the given start commit when one is
provided and otherwise from the named branch's tip, yields the reachable
commits in committer-time order, and returns exactly
`min commitsPageSize n` entries where `n` is the number of reachable
commits (`gitAncestors` is duplicate-free and enumerates exactly the
reachable set), never more than one page. -/
theorem getCommits_page_spec :
    ∀ (g : GitGraph) (branch start : String), Closed g →
      (goLen start ≠ 0 → g.hashOf start ∈ g.nodes →
        getCommits g branch start =
          .ok (((gitLog g (g.hashOf start)).take commitsPageSize).map (mkCommitInfo g)) ∧
        (((gitLog g (g.hashOf start)).take commitsPageSize).map (mkCommitInfo g)).length
          = min commitsPageSize (gitAncestors g (g.hashOf start)).length ∧
        (((gitLog g (g.hashOf start)).take commitsPageSize).map (mkCommitInfo g)).length
          ≤ commitsPageSize ∧
        (gitAncestors g (g.hashOf start)).Nodup ∧
        (∀ c, c ∈ gitAncestors g (g.hashOf start) ↔
          ReachAvoid g.parents [] (g.hashOf start) c)) ∧
      (goLen start = 0 →
        ∀ nm tip, g.refs.find? (fun br => br.1 = ("refs/heads/" ++ branch)) = some (nm, tip) →
          tip ∈ g.nodes →
          getCommits g branch start =
            .ok (((gitLog g tip).take commitsPageSize).map (mkCommitInfo g)) ∧
          (((gitLog g tip).take commitsPageSize).map (mkCommitInfo g)).length
            = min commitsPageSize (gitAncestors g tip).length ∧
          (gitAncestors g tip).Nodup ∧
          (∀ c, c ∈ gitAncestors g tip ↔ ReachAvoid g.parents [] tip c)) ∧
      (goLen start = 0 →
        g.refs.find? (fun br => br.1 = ("refs/heads/" ++ branch)) = none →
        getCommits g branch start = .error ()) := by
  intro g branch start hclosed
  refine ⟨?_, ?_, ?_⟩
  · intro hstart hmem
    obtain ⟨hreach, hnodup, _⟩ := gitDFS_spec g hclosed (g.hashOf start) hmem []
    refine ⟨?_, ?_, ?_, hnodup, hreach⟩
    · unfold getCommits
      rw [if_pos hstart]
    · rw [List.length_map, List.length_take, gitLog, List.length_insertionSort]
    · rw [List.length_map, List.length_take]
      omega
  · intro hstart nm tip hfind hmem
    obtain ⟨hreach, hnodup, _⟩ := gitDFS_spec g hclosed tip hmem []
    refine ⟨?_, ?_, hnodup, hreach⟩
    · unfold getCommits
      rw [if_neg (by simp [hstart]), hfind]
      rfl
    · rw [List.length_map, List.length_take, gitLog, List.length_insertionSort]
  · intro hstart hfind
    unfold getCommits
    rw [if_neg (by simp [hstart]), hfind]
    rfl

/-- Witness for C8: the branch walk of the diamond repository returns all
four commits (min 20 4 = 4). -/
theorem getCommits_page_witness :
    getCommits cxGraph ("master") ("") =
      .ok (((gitLog cxGraph 4).take commitsPageSize).map (mkCommitInfo cxGraph)) ∧
      (((gitLog cxGraph 4).take commitsPageSize).map (mkCommitInfo cxGraph)).length
        = min commitsPageSize (gitAncestors cxGraph 4).length := by
  have h := (getCommits_page_spec cxGraph ("master") ("") (by unfold Closed; decide)).2.1 (by decide)
    ("refs/heads/master") 4 (by decide) (by decide)
  exact ⟨h.1, h.2.1⟩

theorem string_mk_data (s : String) : String.mk s.data = s := rfl

/-- The name `TempFile` generates lives in the temp directory passed to it
(the system temp directory here), provided the random suffix carries no
path separator. -/
theorem dirOf_tempPath (tmpDir sfx : String) (hs : '/' ∉ sfx.data) :
    dirOf (tempPath tmpDir sfx) = tmpDir := by
  unfold dirOf tempPath
  have hdata : (tmpDir ++ "/" ++ ("tmp-store" ++ sfx)).data
      = tmpDir.data ++ '/' :: ("tmp-store".data ++ sfx.data) := by
    simp [String.data_append]
  rw [hdata]
  rw [show (tmpDir.data ++ '/' :: ("tmp-store".data ++ sfx.data)).reverse
      = ("tmp-store".data ++ sfx.data).reverse ++ '/' :: tmpDir.data.reverse by
    simp [List.reverse_append]]
  have hdrop1 : List.dropWhile (fun c => c ≠ '/') (("tmp-store".data ++ sfx.data).reverse)
      = [] := by
    rw [List.dropWhile_eq_nil_iff]
    intro x hx
    rcases List.mem_append.mp (List.mem_reverse.mp hx) with h | h
    · have hts : ∀ c ∈ ("tmp-store").data, c ≠ '/' := by decide
      simpa using hts x h
    · simp only [decide_eq_true_eq]
      intro hxs
      exact hs (hxs ▸ h)
  have hcons : List.dropWhile (fun c => c ≠ '/') ('/' :: tmpDir.data.reverse)
      = '/' :: tmpDir.data.reverse := by
    rw [List.dropWhile_cons]
    simp
  rw [List.dropWhile_append, hdrop1]
  simp only [List.isEmpty_nil, if_true]
  rw [hcons, List.drop_one, List.tail_cons, List.reverse_reverse]

/-- Counterexample to claim C2 as stated: saving the store to
`/data/webhooks.json` goes through a temporary file in `/tmp` (the system
temporary directory, as `ioutil.TempFile("", "tmp-store")` is called with
an empty directory argument), which is not a sibling of the target path —
so the temp file need not be on the target's filesystem. -/
theorem webhookStoreSave_sibling_cx :
    (webhookStoreSave [] savePath0 tmpDir0 sfx0 emptyFS) savePath0
        = some (marshalIndentWebhooks []) ∧
      dirOf (tempPath tmpDir0 sfx0) = tmpDir0 ∧
      dirOf savePath0 = ("/data") ∧
      dirOf (tempPath tmpDir0 sfx0) ≠ dirOf savePath0 := by decide

/-- Claim C2 (amended): `Save` marshals the hooks as an indented JSON
array, writes them to a temporary file created in the system temporary
directory (not necessarily a sibling of the target), and renames that file
over the target path, leaving every other path untouched. -/
theorem webhookStoreSave_spec :
    ∀ (hooks : List Webhook) (path tmpDir sfx : String) (fs : FS),
      webhookStoreSave hooks path tmpDir sfx fs path = some (marshalIndentWebhooks hooks) ∧
      (∀ q, q ≠ path → q ≠ tempPath tmpDir sfx →
        webhookStoreSave hooks path tmpDir sfx fs q = fs q) ∧
      (path ≠ tempPath tmpDir sfx →
        webhookStoreSave hooks path tmpDir sfx fs (tempPath tmpDir sfx) = none) ∧
      ('/' ∉ sfx.data → dirOf (tempPath tmpDir sfx) = tmpDir) := by
  intro hooks path tmpDir sfx fs
  refine ⟨?_, ?_, ?_, dirOf_tempPath tmpDir sfx⟩
  · simp [webhookStoreSave]
  · intro q hqp hqt
    simp [webhookStoreSave, hqp, hqt]
  · intro hpt
    simp [webhookStoreSave, Ne.symm hpt]

/-- Witness for C2 (amended) on the concrete save of the empty store. -/
theorem webhookStoreSave_spec_witness :
    (webhookStoreSave [] savePath0 tmpDir0 sfx0 emptyFS) savePath0
        = some (marshalIndentWebhooks []) ∧
      dirOf (tempPath tmpDir0 sfx0) = tmpDir0 := by
  have h := webhookStoreSave_spec [] savePath0 tmpDir0 sfx0 emptyFS
  exact ⟨h.1, h.2.2.2 (by decide)⟩

set_option maxRecDepth 4000 in
/-- Counterexample to claim C9 as stated: the `branch` field carries
`omitempty` just like `bookmarks` and `tags`, so a commit target with an
empty branch name renders without any "branch" key even though the
payload has commits. -/
theorem marshalPushPayload_branch_cx :
    payloadNoBranch.commits ≠ [] ∧
      ¬ (("\"branch\"").data <:+: (marshalPushPayload payloadNoBranch).data) := by decide

/-- Claim C9 (amended): `MarshalPayload` lays the keys out in the order
`event`, `repository`, then the content key `commits`; within a commit's
target, the `branch`, `bookmarks` and `tags` keys are each emitted exactly
when non-empty (all three carry `omitempty`), so empty bookmark and tag
arrays are omitted, and `branch` is present whenever the branch name is
non-empty. -/
theorem marshalPushPayload_spec :
    (∀ p : PushPayload,
      marshalPushPayload p =
        "\x7b\n" ++ "\t\"event\": " ++ jstrRender pushEvent ++ ",\n" ++
          "\t\"repository\": " ++ jstrRender p.repository ++
          (",\n" ++ "\t" ++ jstrRender ("commits") ++ ": " ++
            renderJ ("\t") ("\t") (.jarr (p.commits.map encodePushCommit)) 0) ++ "\n\x7d\n") ∧
    (∀ t : PushPayloadCommitTarget,
      ((("branch")) ∈ (encodeTargetFields t).map Prod.fst ↔ t.branch ≠ "") ∧
      ((("bookmarks")) ∈ (encodeTargetFields t).map Prod.fst ↔ t.bookmarks ≠ []) ∧
      ((("tags")) ∈ (encodeTargetFields t).map Prod.fst ↔ t.tags ≠ [])) := by
  constructor
  · intro p
    unfold marshalPushPayload marshalPayloadParts
    rw [if_pos (by decide)]
  · intro t
    refine ⟨?_, ?_, ?_⟩ <;>
    · by_cases hbr : t.branch = "" <;> by_cases hbo : t.bookmarks = [] <;>
        by_cases htg : t.tags = [] <;>
        simp [encodeTargetFields, hbr, hbo, htg]

/-- Witness for C9 (amended) at the counterexample payload. -/
theorem marshalPushPayload_spec_witness :
    marshalPushPayload payloadNoBranch =
      "\x7b\n" ++ "\t\"event\": " ++ jstrRender pushEvent ++ ",\n" ++
        "\t\"repository\": " ++ jstrRender payloadNoBranch.repository ++
        (",\n" ++ "\t" ++ jstrRender ("commits") ++ ": " ++
          renderJ ("\t") ("\t") (.jarr (payloadNoBranch.commits.map encodePushCommit)) 0) ++
        "\n\x7d\n" :=
  marshalPushPayload_spec.1 payloadNoBranch

/-- With both tips stored, `mergeBase` does not fail (every branch of its
body is a success). -/
theorem mergeBase_ok (g : GitGraph) (a b : Nat) (ha : a ∈ g.nodes) (hb : b ∈ g.nodes) :
    ∃ mbo, mergeBase g a b = .ok mbo := by
  unfold mergeBase
  rw [if_pos ⟨ha, hb⟩]
  dsimp only
  split
  · exact ⟨none, rfl⟩
  · split
    · exact ⟨_, rfl⟩
    · exact ⟨_, rfl⟩

theorem mergeBaseIgnore_ok (g : GitGraph) (r : PushRecord) (ha : r.new ∈ g.nodes)
    (hb : r.old ∈ g.nodes) : ∃ mb, mergeBaseIgnore g r = .ok mb := by
  obtain ⟨mbo, h⟩ := mergeBase_ok g r.new r.old ha hb
  exact ⟨_, by rw [mergeBaseIgnore, h]; rfl⟩

theorem pushSpec_ids_notin_seen {g : GitGraph} :
    ∀ {rs : List PushRecord} {seen : List Nat} {cs : List PushPayloadCommit},
      PushSpec g rs seen cs → ∀ x ∈ cs.map PushPayloadCommit.id, x ∉ seen := by
  intro rs seen cs h
  induction h with
  | nil _ => intro x hx; simp at hx
  | cons r rs seen cs rest mb seen2 hmb hids hnodup htag hmsg hseen2 hrest ih =>
    intro x hx hxseen
    rw [List.map_append, List.mem_append] at hx
    rcases hx with hx | hx
    · exact ((hids x).mp hx).end_notMem (List.mem_append.mpr (Or.inr hxseen))
    · exact ih x hx ((hseen2 x).mpr (Or.inl hxseen))

/-- Chunks of a `PushSpec` never repeat a commit: each chunk is
duplicate-free and disjoint from everything before it. -/
theorem pushSpec_nodup {g : GitGraph} :
    ∀ {rs : List PushRecord} {seen : List Nat} {cs : List PushPayloadCommit},
      PushSpec g rs seen cs → (cs.map PushPayloadCommit.id).Nodup := by
  intro rs seen cs h
  induction h with
  | nil _ => simp
  | cons r rs seen cs rest mb seen2 hmb hids hnodup htag hmsg hseen2 hrest ih =>
    rw [List.map_append, List.nodup_append]
    refine ⟨hnodup, ih, ?_⟩
    intro x hx hx2
    exact pushSpec_ids_notin_seen hrest x hx2 ((hseen2 x).mpr (Or.inr hx))

/-- The record loop satisfies `PushSpec`: each record contributes, without
duplicates, exactly the commits reachable from its new tip avoiding the
merge-base ignore list and the shared seen set, and the seen set grows by
exactly those commits. -/
theorem parsePushAux_spec (g : GitGraph) (hclosed : Closed g) :
    ∀ (records : List PushRecord) (seen : List Nat) (acc : List PushPayloadCommit),
      (∀ r ∈ records, r.new ≠ nullRevision ∧ r.old ≠ nullRevision ∧
        refsHeadsChars.isPrefixOf r.ref.data = true ∧ r.new ∈ g.nodes ∧ r.old ∈ g.nodes) →
      ∃ cs seen', parsePushAux g records seen acc = .ok (acc ++ cs, seen') ∧
        PushSpec g records seen cs ∧
        (∀ x, x ∈ seen' ↔ x ∈ seen ∨ x ∈ cs.map PushPayloadCommit.id) := by
  intro records
  induction records with
  | nil =>
    intro seen acc _
    exact ⟨[], seen, by simp [parsePushAux], PushSpec.nil seen, fun x => by simp⟩
  | cons r rest ih =>
    intro seen acc hall
    obtain ⟨hnew, hold, href, hnewmem, holdmem⟩ := hall r (List.mem_cons_self r rest)
    obtain ⟨mb, hmb⟩ := mergeBaseIgnore_ok g r hnewmem holdmem
    obtain ⟨hreach, hnodup, _⟩ := gitDFS_spec g hclosed r.new hnewmem (mb ++ seen)
    obtain ⟨cs1, seen', heq1, hspec1, hiff1⟩ := ih (seen ++ (gitDFS g r.new (mb ++ seen)).1)
      (acc ++ ((gitDFS g r.new (mb ++ seen)).1.reverse.map
        (fun h => PushPayloadCommit.mk h (g.message h)
          (PushPayloadCommitTarget.mk (branchNameOf r.ref) [] []))))
      (fun r' hr' => hall r' (List.mem_cons_of_mem r hr'))
    have hstep : parsePushAux g (r :: rest) seen acc =
        parsePushAux g rest (seen ++ (gitDFS g r.new (mb ++ seen)).1)
          (acc ++ ((gitDFS g r.new (mb ++ seen)).1.reverse.map
            (fun h => PushPayloadCommit.mk h (g.message h)
              (PushPayloadCommitTarget.mk (branchNameOf r.ref) [] [])))) := by
      rw [parsePushAux]
      rw [if_neg hnew]
      rw [if_neg (show ¬((!refsHeadsChars.isPrefixOf r.ref.data) = true) by rw [href]; simp)]
      rw [if_neg hold, hmb]
      dsimp only
      rw [if_pos hnewmem]
    set em := (gitDFS g r.new (mb ++ seen)).1 with hem
    set cs0 := em.reverse.map
      (fun h => PushPayloadCommit.mk h (g.message h)
        (PushPayloadCommitTarget.mk (branchNameOf r.ref) [] [])) with hcs0
    have hids0 : cs0.map PushPayloadCommit.id = em.reverse := by
      rw [hcs0, List.map_map]
      rw [show (PushPayloadCommit.id ∘ fun h => PushPayloadCommit.mk h (g.message h)
        (PushPayloadCommitTarget.mk (branchNameOf r.ref) [] [])) = id from rfl]
      exact List.map_id em.reverse
    refine ⟨cs0 ++ cs1, seen', ?_, ?_, ?_⟩
    · rw [hstep, heq1, List.append_assoc]
    · refine PushSpec.cons r rest seen cs0 cs1 mb (seen ++ em) hmb ?_ ?_ ?_ ?_ ?_ hspec1
      · intro h
        rw [hids0, List.mem_reverse]
        exact hreach h
      · rw [hids0]
        exact List.nodup_reverse.mpr hnodup
      · intro c hc
        obtain ⟨h0, _, hc0⟩ := List.mem_map.mp hc
        rw [← hc0]
      · intro c hc
        obtain ⟨h0, _, hc0⟩ := List.mem_map.mp hc
        rw [← hc0]
      · intro x
        rw [List.mem_append, hids0, List.mem_reverse]
    · intro x
      rw [hiff1 x, List.mem_append, List.map_append, List.mem_append, hids0,
        List.mem_reverse]
      tauto

/-- Claim C1 (amended): for push records with non-zero old and new tips on
`refs/heads/` refs, the payload satisfies `PushSpec`: per record, its
commits are exactly those reachable from the record's new tip by ancestry
paths avoiding the merge base of new and old (as computed by `mergeBase`)
and the commits of earlier records, each tagged with the branch name, and
no commit is emitted twice across records. -/
theorem parsePushEvent_spec :
    ∀ (g : GitGraph) (name : String) (records : List PushRecord), Closed g →
      (∀ r ∈ records, r.new ≠ nullRevision ∧ r.old ≠ nullRevision ∧
        refsHeadsChars.isPrefixOf r.ref.data = true ∧ r.new ∈ g.nodes ∧ r.old ∈ g.nodes) →
      ∃ pl, parsePushEvent g name records = .ok pl ∧ pl.repository = name ∧
        PushSpec g records [] pl.commits ∧
        (pl.commits.map PushPayloadCommit.id).Nodup := by
  intro g name records hclosed hall
  obtain ⟨cs, seen', heq, hspec, _⟩ := parsePushAux_spec g hclosed records [] [] hall
  rw [List.nil_append] at heq
  refine ⟨⟨name, cs⟩, ?_, rfl, hspec, pushSpec_nodup hspec⟩
  rw [parsePushEvent, heq]
  rfl

/-- Witness for C1 (amended) on the diamond push. -/
theorem parsePushEvent_spec_witness :
    ∃ pl, parsePushEvent cxGraph ("repo") [cxRecord] = .ok pl ∧ pl.repository = ("repo") ∧
      PushSpec cxGraph [cxRecord] [] pl.commits ∧
      (pl.commits.map PushPayloadCommit.id).Nodup :=
  parsePushEvent_spec cxGraph ("repo") [cxRecord] (by unfold Closed; decide) (by decide)

/-- Counterexample to claim C1 as stated: pushing merge commit 4 over old
tip 2 in the diamond graph has merge base 2, yet the payload contains
commit 1, which is reachable from the merge base — commit 1 reaches the
new tip by a path that avoids the base, so the walk keeps it.  The payload
is therefore not the set difference "reachable from new minus reachable
from the merge base". -/
theorem parsePushEvent_cx :
    (mergeBase cxGraph 4 2).toOption = some (some 2) ∧
      (parsePushEvent cxGraph ("repo") [cxRecord]).toOption.map
        (fun pl => pl.commits.map PushPayloadCommit.id) = some [1, 3, 4] ∧
      1 ∈ gitAncestors cxGraph 2 ∧
      ReachAvoid cxGraph.parents [] 2 1 := by
  refine ⟨by decide, by decide, by decide, ?_⟩
  exact .tail (.refl 2 (by decide)) (by decide) (by decide)
